import Mathlib

/-!
Verification of the path-mapping, exclusion, enumeration and manifest logic of
the backup script (src/backup.py).  Paths and all other Python strings are
embedded as lists of characters; the relevant library calls
(os.path.join, str.find, os.path.splitext, os.walk, os.path.isdir /
os.makedirs) are modelled by executable Lean functions over that
representation, and the script's own functions are translated one to one.
-/

/-- A Python string (here: a file path or path fragment), as a list of characters. -/
abbrev Str := List Char

deriving instance DecidableEq for Except

/-- Model of os.path.isabs for POSIX paths: the path starts with a slash. -/
def isAbs (p : Str) : Bool :=
  match p with
  | [] => false
  | c :: _ => c = '/'

/-- Whether a path ends with the POSIX separator. -/
def endsWithSlash (a : Str) : Bool :=
  match a.getLast? with
  | some c => c = '/'
  | none => false

/-- Model of the two-argument os.path.join on POSIX: an absolute second
component replaces the first; otherwise the components are glued, inserting a
separator unless the first component is empty or already ends with one. -/
def posixJoin (a b : Str) : Str :=
  if isAbs b then b
  else if a = [] then b
  else if endsWithSlash a then a ++ b
  else a ++ '/' :: b

/-- Model of Python str.find: index of the first occurrence of sub as a
contiguous substring, or -1 when there is none. -/
def strFind (s sub : Str) : Int :=
  if sub <+: s then 0
  else
    match s with
    | [] => -1
    | _ :: t => if strFind t sub = -1 then -1 else strFind t sub + 1

/-- Translation of make_backup_file_path (src/backup.py lines 80-117): scan the
source-directory list in order, and at the first entry whose path occurs as a
substring of the file path (str.find is not -1), drop that many leading
characters from the file path, prepend the alias, and join under the backup
directory; raise ValueError when no entry matches. -/
def make_backup_file_path : List (Str × Str) → Str → Str → Except String Str
  | [], _, _ => .error "Something has gone horribly wrong."
  | source_dir :: rest, backup_dir, source_file_path =>
    if strFind source_file_path source_dir.1 ≠ -1 then
      .ok (posixJoin backup_dir (source_dir.2 ++ source_file_path.drop source_dir.1.length))
    else
      make_backup_file_path rest backup_dir source_file_path

/-- The first source entry whose path occurs as a substring of the file path;
this is the entry at which the loop of make_backup_file_path stops. -/
def firstMatch : List (Str × Str) → Str → Option (Str × Str)
  | [], _ => none
  | e :: rest, p => if strFind p e.1 ≠ -1 then some e else firstMatch rest p

/-- Model of Python str.rfind for a single character: index of the last
occurrence, or -1 when the character does not occur. -/
def rfindC : Str → Char → Int
  | [], _ => -1
  | x :: t, c =>
    if rfindC t c = -1 then (if x = c then 0 else -1)
    else rfindC t c + 1

/-- Model of the extension component of os.path.splitext on POSIX
(genericpath._splitext): the text from the last dot on, provided that dot lies
after the last slash and some character of the final segment strictly before it
is not a dot; the empty string otherwise. -/
def splitext_ext (p : Str) : Str :=
  if rfindC p '/' < rfindC p '.' then
    if ((p.drop (rfindC p '/' + 1).toNat).take (rfindC p '.' - (rfindC p '/' + 1)).toNat).any
        (fun c => c != '.') then
      p.drop (rfindC p '.').toNat
    else []
  else []

/-- Translation of check_excluded_filetype (src/backup.py lines 120-144): the
lower-cased splitext extension is looked up in the exclusion list. -/
def check_excluded_filetype (f : Str) (exclude_file_types : List Str) : Bool :=
  if (splitext_ext f).map Char.toLower ∈ exclude_file_types then true else false

/-- The final path segment: everything after the last slash (the whole path
when it has no slash). -/
def lastSeg (p : Str) : Str :=
  (p.reverse.takeWhile (fun c => c != '/')).reverse

/-- Extension as the specification words it for C2: the text from the last dot
of the final path segment on (including the dot), and the empty string when the
segment has no dot. -/
def spec_extension (p : Str) : Str :=
  if ((lastSeg p).reverse.takeWhile (fun c => c != '.')).length = (lastSeg p).reverse.length
  then []
  else '.' :: ((lastSeg p).reverse.takeWhile (fun c => c != '.')).reverse

/-- Extension under the amended reading: as spec_extension, except that the
extension is empty whenever every character of the final segment before its
last dot is itself a dot (in particular for names like ".bashrc"). -/
def segExt (p : Str) : Str :=
  if ((lastSeg p).reverse.takeWhile (fun c => c != '.')).length = (lastSeg p).reverse.length
  then []
  else if ((lastSeg p).reverse.drop
            (((lastSeg p).reverse.takeWhile (fun c => c != '.')).length + 1)).any
          (fun c => c != '.')
  then '.' :: ((lastSeg p).reverse.takeWhile (fun c => c != '.')).reverse
  else []

/-- A directory tree as seen by os.walk: the files directly inside the
directory, and its named subdirectories. -/
inductive FSTree where
  | node (files : List Str) (subdirs : List (Str × FSTree))

mutual

/-- Model of os.walk(top) with the default top-down order, retaining only the
fields the script uses: the triple for top itself, then the walks of each
subdirectory rooted at os.path.join(top, name). -/
def walk : Str → FSTree → List (Str × List Str)
  | top, .node files subdirs => (top, files) :: walkList top subdirs

/-- Walks of a list of named subdirectories of the directory at top. -/
def walkList : Str → List (Str × FSTree) → List (Str × List Str)
  | _, [] => []
  | top, (name, t) :: rest => walk (posixJoin top name) t ++ walkList top rest

end

/-- The filesystem, as the directory tree found at each path (none when the
path does not name a readable directory, in which case os.walk yields
nothing). -/
def os_walk (fs : Str → Option FSTree) (top : Str) : List (Str × List Str) :=
  match fs top with
  | none => []
  | some t => walk top t

/-- Translation of get_files (src/backup.py lines 22-49): collect the first
components of the source entries, then for every os.walk triple of each
directory add the number of files to the count and append the joined path of
every file to the list. -/
def get_files (source_dirs : List (Str × Str)) (fs : Str → Option FSTree) :
    Nat × List Str :=
  let directory_list := source_dirs.map (fun entry => entry.1)
  directory_list.foldl
    (fun acc directory =>
      (os_walk fs directory).foldl
        (fun acc2 step =>
          (acc2.1 + step.2.length, acc2.2 ++ step.2.map (fun f => posixJoin step.1 f)))
        acc)
    (0, [])

/-- Model of os.makedirs with the default exist_ok=False: record the new
directory, raising FileExistsError when the target already exists.  The state
is the set of existing directories; creation of missing intermediate
directories is immaterial to the properties proved here and is not tracked. -/
def os_makedirs (fs : List Str) (d : Str) : Except String (List Str) :=
  if d ∈ fs then .error "FileExistsError" else .ok (d :: fs)

/-- Translation of make_backup_directory (src/backup.py lines 52-77): join the
timestamp under the backup location; create the directory only when
os.path.isdir does not already report it; return its path. -/
def make_backup_directory (fs : List Str) (backup_loc timestamp : Str) :
    Except String (Str × List Str) :=
  let backup_dir := posixJoin backup_loc timestamp
  if backup_dir ∈ fs then .ok (backup_dir, fs)
  else
    match os_makedirs fs backup_dir with
    | .error e => .error e
    | .ok fs2 => .ok (backup_dir, fs2)

/-- Translation of the directory-creation loop of main (src/backup.py lines
242-246): one timestamp is computed before the loop, and every backup location
gets its timestamped directory from make_backup_directory with that same
timestamp, threading the filesystem state. -/
def make_backup_dirs_loop : List Str → Str → List Str →
    Except String (List Str × List Str)
  | [], _, fs => .ok ([], fs)
  | dest :: rest, timestamp, fs =>
    match make_backup_directory fs dest timestamp with
    | .error e => .error e
    | .ok (d, fs2) =>
      match make_backup_dirs_loop rest timestamp fs2 with
      | .error e => .error e
      | .ok (ds, fs3) => .ok (d :: ds, fs3)

/-- Translation of the text assembled by the f.write calls of backup_notes
(src/backup.py lines 200-227); gethostname() is passed in as hostname. -/
def backup_notes_content (backup_location : Str) (source_dirs : List (Str × Str))
    (backup_locs : List Str) (excluded_types : List Str)
    (timestamp notes hostname : Str) : Str :=
  List.flatten
    ["Date\n".toList, "                 ".toList, timestamp, "\n\n".toList,
     "Machine\n".toList, "                 ".toList, hostname, "\n\n".toList,
     "Source folders\n".toList,
     source_dirs.enum.flatMap (fun ie =>
       "                 ".toList ++ (toString ie.1).toList ++ ". ".toList
         ++ ie.2.1 ++ "\n".toList),
     "\n".toList,
     "Aliases\n".toList,
     source_dirs.enum.flatMap (fun ie =>
       "                 ".toList ++ (toString ie.1).toList ++ ". ".toList
         ++ ie.2.2 ++ "\n".toList),
     "\n".toList,
     "Backup locations\n".toList,
     backup_locs.flatMap (fun bup_loc =>
       if bup_loc ≠ backup_location then
         "                 ".toList ++ bup_loc ++ "\n".toList
       else
         "                 ".toList ++ bup_loc ++ " (here)\n".toList),
     "\n".toList,
     "Excluded\n".toList,
     excluded_types.flatMap (fun excl_type =>
       "                 ".toList ++ excl_type ++ "\n".toList),
     "\n".toList,
     "Notes\n".toList, "                 ".toList, notes]

/-- Translation of backup_notes (src/backup.py lines 177-227): the name of the
file written (backup_notes.txt joined under the backup location) and its full
text. -/
def backup_notes (backup_location : Str) (source_dirs : List (Str × Str))
    (backup_locs : List Str) (excluded_types : List Str)
    (timestamp notes hostname : Str) : Str × Str :=
  (posixJoin backup_location "backup_notes.txt".toList,
   backup_notes_content backup_location source_dirs backup_locs excluded_types
     timestamp notes hostname)

/-- Mutable state of the copy phase of main: the successfully copied
(source, destination) pairs and the failed_copies counter. -/
structure CopyState where
  copied : List (Str × Str)
  failed_copies : Nat
  deriving DecidableEq

/-- Translation of the per-file loop of main (src/backup.py lines 275-307)
over one backup directory: excluded files are skipped; otherwise the backup
path is computed (a ValueError there aborts the run: it is not caught), the
copyfile call is attempted, and a failing copy is caught, counted in
failed_copies, and the loop continues with the next file.  Success or failure
of each copyfile call is abstracted by the oracle copyOk, applied to the
backup directory and the source file. -/
def copy_loop (source_dirs : List (Str × Str)) (exclude_file_types : List Str)
    (copyOk : Str → Str → Bool) (backup_dir : Str) :
    List Str → CopyState → Except String CopyState
  | [], st => .ok st
  | f :: rest, st =>
    if check_excluded_filetype f exclude_file_types then
      copy_loop source_dirs exclude_file_types copyOk backup_dir rest st
    else
      match make_backup_file_path source_dirs backup_dir f with
      | .error e => .error e
      | .ok backup_file_path =>
        if copyOk backup_dir f then
          copy_loop source_dirs exclude_file_types copyOk backup_dir rest
            { st with copied := st.copied ++ [(f, backup_file_path)] }
        else
          copy_loop source_dirs exclude_file_types copyOk backup_dir rest
            { st with failed_copies := st.failed_copies + 1 }

/-- Translation of the outer loop of main (src/backup.py lines 263-313): the
same enumerated file list is processed once per backup directory, with the
failure counter carried across directories. -/
def run_loop (source_dirs : List (Str × Str)) (exclude_file_types : List Str)
    (copyOk : Str → Str → Bool) :
    List Str → List Str → CopyState → Except String CopyState
  | [], _, st => .ok st
  | backup_dir :: rest, file_paths, st =>
    match copy_loop source_dirs exclude_file_types copyOk backup_dir file_paths st with
    | .error e => .error e
    | .ok st2 => run_loop source_dirs exclude_file_types copyOk rest file_paths st2

/-- Whether make_backup_file_path returns normally on the given input. -/
def mbfpOk (source_dirs : List (Str × Str)) (backup_dir f : Str) : Bool :=
  match make_backup_file_path source_dirs backup_dir f with
  | .ok _ => true
  | .error _ => false

/-! Lemmas about the path primitives. -/

theorem isAbs_append {a : Str} (b : Str) (ha : a ≠ []) : isAbs (a ++ b) = isAbs a := by
  cases a with
  | nil => exact absurd rfl ha
  | cons c t => simp [isAbs]

theorem posixJoin_abs {a : Str} (b : Str) (ha : isAbs a = true) :
    isAbs (posixJoin a b) = true := by
  have hne : a ≠ [] := by
    intro h; rw [h] at ha; simp [isAbs] at ha
  unfold posixJoin
  by_cases hb : isAbs b = true
  · simp [hb]
  · simp only [Bool.not_eq_true] at hb
    simp only [hb, if_neg, Bool.false_eq_true, if_false, hne, if_neg]
    by_cases hs : endsWithSlash a = true
    · simp [hs, isAbs_append _ hne, ha]
    · simp only [Bool.not_eq_true] at hs
      simp [hs, isAbs_append _ hne, ha]

theorem posixJoin_left_pref (a : Str) {b : Str} (hb : isAbs b = false) :
    a <+: posixJoin a b := by
  unfold posixJoin
  simp only [hb, Bool.false_eq_true, if_false]
  by_cases ha : a = []
  · simp [ha]
  · simp only [ha, if_neg, if_false]
    by_cases hs : endsWithSlash a = true
    · simp [hs, List.prefix_append]
    · simp only [Bool.not_eq_true] at hs
      simp only [hs, Bool.false_eq_true, if_false]
      exact ⟨'/' :: b, rfl⟩

theorem posixJoin_eq {a b : Str} (ha : a ≠ []) (hs : endsWithSlash a = false)
    (hb : isAbs b = false) : posixJoin a b = a ++ '/' :: b := by
  unfold posixJoin
  simp [hb, ha, hs]

theorem endsWithSlash_append {a : Str} (b : Str) (hb : b ≠ []) :
    endsWithSlash (a ++ b) = endsWithSlash b := by
  unfold endsWithSlash
  rw [List.getLast?_append]
  cases hx : b.getLast? with
  | none => exact absurd (List.getLast?_eq_none_iff.mp hx) hb
  | some c => simp [Option.or]

theorem endsWithSlash_cons {c : Char} {b : Str} (hb : b ≠ []) :
    endsWithSlash (c :: b) = endsWithSlash b := by
  have : c :: b = [c] ++ b := rfl
  rw [this, endsWithSlash_append b hb]

/-! Lemmas about strFind and make_backup_file_path. -/

theorem strFind_zero_of_pref {s sub : Str} (h : sub <+: s) : strFind s sub = 0 := by
  unfold strFind
  simp [h]

theorem strFind_ne_neg_one_of_pref {s sub : Str} (h : sub <+: s) :
    strFind s sub ≠ -1 := by
  rw [strFind_zero_of_pref h]; decide

/-- The loop body of make_backup_file_path, expressed through firstMatch. -/
theorem make_backup_file_path_eq (entries : List (Str × Str)) (bd p : Str) :
    make_backup_file_path entries bd p =
      match firstMatch entries p with
      | none => .error "Something has gone horribly wrong."
      | some e => .ok (posixJoin bd (e.2 ++ p.drop e.1.length)) := by
  induction entries with
  | nil => rfl
  | cons e rest ih =>
    by_cases h : strFind p e.1 ≠ -1
    · simp [make_backup_file_path, firstMatch, h]
    · simp [make_backup_file_path, firstMatch, h, ih]

theorem make_backup_file_path_ok_of_match {entries : List (Str × Str)} {p : Str}
    (bd : Str) (e : Str × Str) (he : e ∈ entries) (hm : strFind p e.1 ≠ -1) :
    ∃ r, make_backup_file_path entries bd p = .ok r := by
  induction entries with
  | nil => exact absurd he (List.not_mem_nil e)
  | cons e0 rest ih =>
    by_cases h0 : strFind p e0.1 ≠ -1
    · exact ⟨posixJoin bd (e0.2 ++ p.drop e0.1.length),
        by simp [make_backup_file_path, h0]⟩
    · rcases List.mem_cons.mp he with he0 | he0
      · subst he0; exact absurd hm h0
      · rcases ih he0 with ⟨r, hr⟩
        refine ⟨r, ?_⟩
        simpa [make_backup_file_path, h0] using hr

/-- When the first matching entry is a genuine prefix of the file path and the
alias and backup directory are well behaved, the mapping produces the
root/alias/relative-path layout. -/
theorem make_backup_file_path_layout {entries : List (Str × Str)} {bd p src als rel : Str}
    (hfm : firstMatch entries p = some (src, als))
    (hp : p = src ++ '/' :: rel)
    (ha1 : als ≠ []) (ha2 : isAbs als = false)
    (hb1 : bd ≠ []) (hb2 : endsWithSlash bd = false) :
    make_backup_file_path entries bd p = .ok (bd ++ '/' :: (als ++ '/' :: rel)) := by
  rw [make_backup_file_path_eq, hfm]
  have hdrop : p.drop src.length = '/' :: rel := by
    rw [hp]
    exact List.drop_left src ('/' :: rel)
  simp only [hdrop]
  have habs : isAbs (als ++ '/' :: rel) = false := by
    rw [isAbs_append _ ha1, ha2]
  rw [posixJoin_eq hb1 hb2 habs]

/-! Lemmas about takeWhile, rfindC, lastSeg and the splitext model. -/

theorem takeWhile_ne_of_not_mem {ch : Char} : ∀ {l : Str}, ch ∉ l →
    l.takeWhile (fun c => c != ch) = l := by
  intro l
  induction l with
  | nil => intro _; rfl
  | cons x t ih =>
    intro h
    have hx : x ≠ ch := fun hxe => h (hxe ▸ List.mem_cons_self x t)
    have ht : ch ∉ t := fun hm => h (List.mem_cons_of_mem x hm)
    simp [List.takeWhile_cons, hx, Ne.symm hx, ih ht]

theorem takeWhile_ne_append {ch : Char} (l₂ : Str) : ∀ {l₁ : Str}, ch ∉ l₁ →
    (l₁ ++ ch :: l₂).takeWhile (fun c => c != ch) = l₁ := by
  intro l₁
  induction l₁ with
  | nil => intro _; simp [List.takeWhile_cons]
  | cons x t ih =>
    intro h
    have hx : x ≠ ch := fun hxe => h (hxe ▸ List.mem_cons_self x t)
    have ht : ch ∉ t := fun hm => h (List.mem_cons_of_mem x hm)
    simp [List.takeWhile_cons, hx, Ne.symm hx, ih ht]

theorem last_split (ch : Char) (p : Str) :
    ch ∉ p ∨ ∃ a s, p = a ++ ch :: s ∧ ch ∉ s := by
  induction p with
  | nil => exact Or.inl (List.not_mem_nil ch)
  | cons x t ih =>
    rcases ih with h | ⟨a, s, rfl, hs⟩
    · by_cases hx : x = ch
      · subst hx; exact Or.inr ⟨[], t, rfl, h⟩
      · refine Or.inl fun hm => ?_
        rcases List.mem_cons.mp hm with h1 | h1
        · exact hx h1.symm
        · exact h h1
    · exact Or.inr ⟨x :: a, s, rfl, hs⟩

theorem rfindC_of_not_mem {ch : Char} : ∀ {s : Str}, ch ∉ s → rfindC s ch = -1 := by
  intro s
  induction s with
  | nil => intro _; rfl
  | cons x t ih =>
    intro h
    have hx : x ≠ ch := fun hxe => h (hxe ▸ List.mem_cons_self x t)
    have ht : ch ∉ t := fun hm => h (List.mem_cons_of_mem x hm)
    simp [rfindC, ih ht, hx]

theorem rfindC_lt_length (s : Str) (ch : Char) : rfindC s ch < (s.length : Int) := by
  induction s with
  | nil => simp [rfindC]
  | cons x t ih =>
    simp only [rfindC, List.length_cons]
    by_cases h : rfindC t ch = -1
    · by_cases hx : x = ch
      · simp only [h, hx, if_pos]
        omega
      · simp only [h, hx, if_pos, if_neg, Bool.false_eq_true, ite_false]
        omega
    · simp only [h, if_neg, if_false]
      push_cast
      omega

theorem rfindC_append_last {ch : Char} (a : Str) {b : Str} (hb : ch ∉ b) :
    rfindC (a ++ ch :: b) ch = (a.length : Int) := by
  induction a with
  | nil =>
    simp [rfindC, rfindC_of_not_mem hb]
  | cons x t ih =>
    have hne : ¬ ((t.length : Int) = -1) := by
      intro hEq
      omega
    simp only [List.cons_append, rfindC, List.append_eq, ih, hne, if_neg, if_false,
      List.length_cons]
    omega

theorem rfindC_append_of_not_mem {ch : Char} {b : Str} (a : Str) (hb : ch ∉ b) :
    rfindC (a ++ b) ch = rfindC a ch := by
  induction a with
  | nil => simp [rfindC_of_not_mem hb, rfindC]
  | cons x t ih => simp only [List.cons_append, rfindC, List.append_eq, ih]

theorem lastSeg_of_not_mem {p : Str} (h : ('/' : Char) ∉ p) : lastSeg p = p := by
  unfold lastSeg
  rw [takeWhile_ne_of_not_mem (List.mem_reverse.not.mpr h)]
  exact List.reverse_reverse p

theorem lastSeg_append {a s : Str} (hs : ('/' : Char) ∉ s) :
    lastSeg (a ++ '/' :: s) = s := by
  unfold lastSeg
  have hrev : (a ++ '/' :: s).reverse = s.reverse ++ '/' :: a.reverse := by
    rw [List.reverse_append, List.reverse_cons, List.append_assoc]
    rfl
  rw [hrev, takeWhile_ne_append _ (List.mem_reverse.not.mpr hs)]
  exact List.reverse_reverse s

theorem segExt_of_no_dot {p : Str} (h : ('.' : Char) ∉ lastSeg p) : segExt p = [] := by
  unfold segExt
  rw [takeWhile_ne_of_not_mem (List.mem_reverse.not.mpr h)]
  simp

theorem segExt_of_split {p b body : Str}
    (hseg : lastSeg p = b ++ '.' :: body) (hb : ('.' : Char) ∉ body) :
    segExt p = if b.any (fun c => c != '.') then '.' :: body else [] := by
  unfold segExt
  rw [hseg]
  have hrev : (b ++ '.' :: body).reverse = body.reverse ++ '.' :: b.reverse := by
    rw [List.reverse_append, List.reverse_cons, List.append_assoc]
    rfl
  rw [hrev, takeWhile_ne_append _ (List.mem_reverse.not.mpr hb)]
  have hlen : body.reverse.length ≠ (body.reverse ++ '.' :: b.reverse).length := by
    simp
  rw [if_neg hlen]
  have hsplit : body.reverse ++ '.' :: b.reverse = (body.reverse ++ ['.']) ++ b.reverse := by
    simp
  have hdrop : (body.reverse ++ '.' :: b.reverse).drop (body.reverse.length + 1) = b.reverse := by
    rw [hsplit]
    have hl : body.reverse.length + 1 = (body.reverse ++ ['.']).length := by simp
    rw [hl]
    exact List.drop_left _ _
  rw [hdrop, List.reverse_reverse, List.any_reverse]

theorem splitext_ext_eq_segExt (p : Str) : splitext_ext p = segExt p := by
  rcases last_split '/' p with hslash | ⟨a, s, rfl, hs⟩
  · have hsep : rfindC p '/' = -1 := rfindC_of_not_mem hslash
    have hseg : lastSeg p = p := lastSeg_of_not_mem hslash
    rcases last_split '.' p with hdot | ⟨b, body, rfl, hb⟩
    · have hdotI : rfindC p '.' = -1 := rfindC_of_not_mem hdot
      rw [segExt_of_no_dot (by rw [hseg]; exact hdot)]
      unfold splitext_ext
      rw [hsep, hdotI]
      norm_num
    · have hdotI : rfindC (b ++ '.' :: body) '.' = (b.length : Int) :=
        rfindC_append_last b hb
      rw [segExt_of_split hseg hb]
      unfold splitext_ext
      rw [hsep, hdotI]
      have hc : (-1 : Int) < (b.length : Int) := by omega
      rw [if_pos hc]
      have h0 : ((-1 : Int) + 1).toNat = 0 := by omega
      have h1 : ((b.length : Int) - ((-1 : Int) + 1)).toNat = b.length := by omega
      have h2 : ((b.length : Int)).toNat = b.length := Int.toNat_natCast b.length
      rw [h0, h1, h2, List.drop_zero, List.take_left, List.drop_left]
  · have hsep : rfindC (a ++ '/' :: s) '/' = (a.length : Int) := rfindC_append_last a hs
    have hseg : lastSeg (a ++ '/' :: s) = s := lastSeg_append hs
    rcases last_split '.' s with hdot | ⟨b, body, rfl, hb⟩
    · have hnotin : ('.' : Char) ∉ '/' :: s := by
        intro hm
        rcases List.mem_cons.mp hm with hm | hm
        · exact absurd hm (by decide)
        · exact hdot hm
      have hdotI : rfindC (a ++ '/' :: s) '.' = rfindC a '.' :=
        rfindC_append_of_not_mem a hnotin
      rw [segExt_of_no_dot (by rw [hseg]; exact hdot)]
      unfold splitext_ext
      rw [hsep, hdotI]
      have hlt : ¬ ((a.length : Int) < rfindC a '.') := by
        have := rfindC_lt_length a '.'
        omega
      rw [if_neg hlt]
    · have hassoc : a ++ '/' :: (b ++ '.' :: body) = (a ++ '/' :: b) ++ '.' :: body := by
        simp
      have hdotI : rfindC (a ++ '/' :: (b ++ '.' :: body)) '.'
          = ((a ++ '/' :: b).length : Int) := by
        rw [hassoc]
        exact rfindC_append_last _ hb
      rw [segExt_of_split hseg hb]
      unfold splitext_ext
      rw [hsep, hdotI]
      have hlenP : ((a ++ '/' :: b).length : Int) = (a.length : Int) + 1 + (b.length : Int) := by
        simp [List.length_append]
        omega
      have hc : (a.length : Int) < ((a ++ '/' :: b).length : Int) := by
        rw [hlenP]; omega
      rw [if_pos hc]
      have h0 : ((a.length : Int) + 1).toNat = a.length + 1 := by omega
      have h1 : (((a ++ '/' :: b).length : Int) - ((a.length : Int) + 1)).toNat = b.length := by
        rw [hlenP]; omega
      have h2 : (((a ++ '/' :: b).length : Int)).toNat = (a ++ '/' :: b).length :=
        Int.toNat_natCast _
      rw [h0, h1, h2]
      have hdrop1 : (a ++ '/' :: (b ++ '.' :: body)).drop (a.length + 1) = b ++ '.' :: body := by
        have hs2 : a ++ '/' :: (b ++ '.' :: body) = (a ++ ['/']) ++ (b ++ '.' :: body) := by
          simp
        rw [hs2]
        have hl : a.length + 1 = (a ++ ['/']).length := by simp
        rw [hl]
        exact List.drop_left _ _
      rw [hdrop1, List.take_left]
      have hdrop2 : (a ++ '/' :: (b ++ '.' :: body)).drop (a ++ '/' :: b).length
          = '.' :: body := by
        rw [hassoc]
        exact List.drop_left _ _
      rw [hdrop2]

/-! Lemmas about walk, os_walk and get_files. -/

/-- Sanity condition every real directory tree satisfies: no entry name (file
or subdirectory) begins with the path separator. -/
inductive FSTree.Wellformed : FSTree → Prop
  | node (files : List Str) (subdirs : List (Str × FSTree))
      (hfiles : ∀ f ∈ files, isAbs f = false)
      (hnames : ∀ x ∈ subdirs, isAbs x.1 = false)
      (hsub : ∀ x ∈ subdirs, Wellformed x.2) :
      Wellformed (.node files subdirs)

theorem walkList_nil (top : Str) : walkList top [] = [] := by
  rw [walkList]

theorem walkList_cons (top name : Str) (t : FSTree) (rest : List (Str × FSTree)) :
    walkList top ((name, t) :: rest) = walk (posixJoin top name) t ++ walkList top rest := by
  rw [walkList]

theorem mem_walkList {st : Str × List Str} : ∀ {top : Str} {subdirs : List (Str × FSTree)},
    st ∈ walkList top subdirs ↔ ∃ x ∈ subdirs, st ∈ walk (posixJoin top x.1) x.2 := by
  intro top subdirs
  induction subdirs with
  | nil =>
    rw [walkList_nil]
    constructor
    · intro h
      exact absurd h (List.not_mem_nil st)
    · rintro ⟨x, hx, _⟩
      exact absurd hx (List.not_mem_nil x)
  | cons x rest ih =>
    cases x with
    | mk name t =>
      rw [walkList_cons]
      simp only [List.mem_append, ih, List.mem_cons]
      constructor
      · rintro (h | ⟨y, hy, hm⟩)
        · exact ⟨(name, t), Or.inl rfl, h⟩
        · exact ⟨y, Or.inr hy, hm⟩
      · rintro ⟨y, hy | hy, hm⟩
        · subst hy; exact Or.inl hm
        · exact Or.inr ⟨y, hy, hm⟩

/-- Along a wellformed walk, every reported directory path extends the top
directory and no reported file name is absolute. -/
theorem walk_wf {t : FSTree} (hwf : t.Wellformed) : ∀ (top : Str) (st : Str × List Str),
    st ∈ walk top t → top <+: st.1 ∧ ∀ f ∈ st.2, isAbs f = false := by
  induction hwf with
  | node files subdirs hfiles hnames hsub ih =>
    intro top st hst
    rw [walk] at hst
    rcases List.mem_cons.mp hst with h | h
    · subst h
      exact ⟨List.prefix_rfl, hfiles⟩
    · rcases mem_walkList.mp h with ⟨x, hx, hm⟩
      rcases ih x hx (posixJoin top x.1) st hm with ⟨hpre, hf⟩
      exact ⟨(posixJoin_left_pref top (hnames x hx)).trans hpre, hf⟩

theorem walk_abs_aux : ∀ (n : Nat) (t : FSTree), sizeOf t ≤ n → ∀ (top : Str),
    isAbs top = true → ∀ st ∈ walk top t, isAbs st.1 = true := by
  intro n
  induction n with
  | zero =>
    intro t hle
    cases t with
    | node files subdirs => simp at hle
  | succ n ih =>
    intro t hle top htop st hst
    cases t with
    | node files subdirs =>
      rw [walk] at hst
      rcases List.mem_cons.mp hst with h | h
      · subst h; exact htop
      · rcases mem_walkList.mp h with ⟨x, hx, hm⟩
        have hx1 : sizeOf x < sizeOf subdirs := List.sizeOf_lt_of_mem hx
        have hx2 : sizeOf x.2 ≤ n := by
          cases x with
          | mk name t2 =>
            simp only [Prod.mk.sizeOf_spec] at hx1
            simp only [FSTree.node.sizeOf_spec] at hle
            simp only []
            omega
        exact ih x.2 hx2 (posixJoin top x.1) (posixJoin_abs x.1 htop) st hm

/-- Along any walk of an absolute top directory, every reported directory path
is absolute. -/
theorem walk_abs {t : FSTree} {top : Str} (htop : isAbs top = true) :
    ∀ st ∈ walk top t, isAbs st.1 = true :=
  walk_abs_aux (sizeOf t) t (Nat.le_refl _) top htop

theorem step_foldl (steps : List (Str × List Str)) :
    ∀ acc : Nat × List Str,
      steps.foldl
        (fun acc2 step =>
          (acc2.1 + step.2.length, acc2.2 ++ step.2.map (fun f => posixJoin step.1 f)))
        acc
      = (acc.1 + (steps.map (fun st => st.2.length)).sum,
         acc.2 ++ steps.flatMap (fun st => st.2.map (fun f => posixJoin st.1 f))) := by
  induction steps with
  | nil => intro acc; simp
  | cons s rest ih =>
    intro acc
    simp only [List.foldl_cons, ih, List.map_cons, List.sum_cons, List.flatMap_cons]
    simp only [Prod.mk.injEq]
    exact ⟨by omega, by simp [List.append_assoc]⟩

theorem get_files_eq (source_dirs : List (Str × Str)) (fs : Str → Option FSTree) :
    get_files source_dirs fs
      = (((source_dirs.map (fun e => e.1)).map
            (fun d => ((os_walk fs d).map (fun st => st.2.length)).sum)).sum,
         (source_dirs.map (fun e => e.1)).flatMap
           (fun d => (os_walk fs d).flatMap
             (fun st => st.2.map (fun f => posixJoin st.1 f)))) := by
  unfold get_files
  generalize source_dirs.map (fun e => e.1) = dirs
  simp only []
  suffices h : ∀ (acc : Nat × List Str),
      dirs.foldl
        (fun acc directory =>
          (os_walk fs directory).foldl
            (fun acc2 step =>
              (acc2.1 + step.2.length, acc2.2 ++ step.2.map (fun f => posixJoin step.1 f)))
            acc)
        acc
      = (acc.1 + (dirs.map (fun d => ((os_walk fs d).map (fun st => st.2.length)).sum)).sum,
         acc.2 ++ dirs.flatMap
           (fun d => (os_walk fs d).flatMap (fun st => st.2.map (fun f => posixJoin st.1 f)))) by
    rw [h (0, [])]
    simp
  induction dirs with
  | nil => intro acc; simp
  | cons d rest ih =>
    intro acc
    rw [List.foldl_cons, step_foldl, ih]
    simp only [List.map_cons, List.sum_cons, List.flatMap_cons]
    congr 1
    · omega
    · simp [List.append_assoc]

theorem get_files_mem {source_dirs : List (Str × Str)} {fs : Str → Option FSTree} {q : Str}
    (h : q ∈ (get_files source_dirs fs).2) :
    ∃ e ∈ source_dirs, ∃ st ∈ os_walk fs e.1, ∃ f ∈ st.2, q = posixJoin st.1 f := by
  rw [get_files_eq] at h
  simp only [List.mem_flatMap, List.mem_map] at h
  rcases h with ⟨d, ⟨e, he, rfl⟩, st, hst, f, hf, rfl⟩
  exact ⟨e, he, st, hst, f, hf, rfl⟩

theorem os_walk_cases {fs : Str → Option FSTree} {d : Str} {st : Str × List Str}
    (h : st ∈ os_walk fs d) : ∃ t, fs d = some t ∧ st ∈ walk d t := by
  unfold os_walk at h
  cases hfd : fs d with
  | none => rw [hfd] at h; simp at h
  | some t => rw [hfd] at h; exact ⟨t, rfl, h⟩

/-! Lemmas about make_backup_directory, the directory-creation loop, and the
copy loops. -/

theorem make_backup_directory_spec (fs : List Str) (backup_loc timestamp : Str) :
    ∃ fs2, make_backup_directory fs backup_loc timestamp
        = .ok (posixJoin backup_loc timestamp, fs2)
      ∧ posixJoin backup_loc timestamp ∈ fs2 := by
  by_cases h : posixJoin backup_loc timestamp ∈ fs
  · exact ⟨fs, by simp [make_backup_directory, h], h⟩
  · refine ⟨posixJoin backup_loc timestamp :: fs, ?_, List.mem_cons_self _ _⟩
    simp [make_backup_directory, os_makedirs, h]

theorem make_backup_dirs_loop_spec : ∀ (locs : List Str) (ts : Str) (fs : List Str),
    ∃ fs2, make_backup_dirs_loop locs ts fs
      = .ok (locs.map (fun d => posixJoin d ts), fs2) := by
  intro locs
  induction locs with
  | nil => intro ts fs; exact ⟨fs, rfl⟩
  | cons dest rest ih =>
    intro ts fs
    rcases make_backup_directory_spec fs dest ts with ⟨fsa, ha, _⟩
    rcases ih ts fsa with ⟨fsb, hb⟩
    refine ⟨fsb, ?_⟩
    simp [make_backup_dirs_loop, ha, hb]

theorem copy_loop_spec (source_dirs : List (Str × Str)) (excl : List Str)
    (copyOk : Str → Str → Bool) (bd : Str) :
    ∀ (files : List Str) (st : CopyState),
    (∀ f ∈ files, check_excluded_filetype f excl = false → mbfpOk source_dirs bd f = true) →
    ∃ st2, copy_loop source_dirs excl copyOk bd files st = .ok st2
      ∧ st2.failed_copies = st.failed_copies
          + files.countP (fun f => !check_excluded_filetype f excl && !copyOk bd f)
      ∧ (∀ x ∈ st.copied, x ∈ st2.copied)
      ∧ ∀ f ∈ files, check_excluded_filetype f excl = false → copyOk bd f = true →
          ∀ d, make_backup_file_path source_dirs bd f = .ok d → (f, d) ∈ st2.copied := by
  intro files
  induction files with
  | nil =>
    intro st _
    refine ⟨st, rfl, by simp [List.countP_nil], fun x hx => hx, ?_⟩
    intro f hf
    exact absurd hf (List.not_mem_nil f)
  | cons f rest ih =>
    intro st hmap
    have hmap2 : ∀ g ∈ rest, check_excluded_filetype g excl = false →
        mbfpOk source_dirs bd g = true :=
      fun g hg => hmap g (List.mem_cons_of_mem f hg)
    by_cases hch : check_excluded_filetype f excl = true
    · rcases ih st hmap2 with ⟨st2, h1, h2, h3, h4⟩
      refine ⟨st2, ?_, ?_, h3, ?_⟩
      · simpa [copy_loop, hch] using h1
      · rw [h2, List.countP_cons]
        simp [hch]
      · intro g hg hgex hgcp d hd
        rcases List.mem_cons.mp hg with hg0 | hg0
        · subst hg0; rw [hch] at hgex; cases hgex
        · exact h4 g hg0 hgex hgcp d hd
    · have hch2 : check_excluded_filetype f excl = false := by
        cases h : check_excluded_filetype f excl
        · rfl
        · exact absurd h hch
      have hok := hmap f (List.mem_cons_self f rest) hch2
      unfold mbfpOk at hok
      cases hmb : make_backup_file_path source_dirs bd f with
      | error e => rw [hmb] at hok; cases hok
      | ok dpath =>
        by_cases hcp : copyOk bd f = true
        · rcases ih { st with copied := st.copied ++ [(f, dpath)] } hmap2 with
            ⟨st2, h1, h2, h3, h4⟩
          refine ⟨st2, ?_, ?_, ?_, ?_⟩
          · simpa [copy_loop, hch2, hmb, hcp] using h1
          · rw [h2, List.countP_cons]
            simp [hch2, hcp]
          · intro x hx
            exact h3 x (List.mem_append_left _ hx)
          · intro g hg hgex hgcp d hd
            rcases List.mem_cons.mp hg with hg0 | hg0
            · subst hg0
              rw [hmb] at hd
              have hdp : dpath = d := Except.ok.inj hd
              subst hdp
              exact h3 (g, dpath) (List.mem_append_right _ (List.mem_cons_self _ _))
            · exact h4 g hg0 hgex hgcp d hd
        · have hcp2 : copyOk bd f = false := by
            cases h : copyOk bd f
            · rfl
            · exact absurd h hcp
          rcases ih { st with failed_copies := st.failed_copies + 1 } hmap2 with
            ⟨st2, h1, h2, h3, h4⟩
          refine ⟨st2, ?_, ?_, h3, ?_⟩
          · simpa [copy_loop, hch2, hmb, hcp2] using h1
          · rw [h2, List.countP_cons]
            simp only [hch2, hcp2, Bool.not_false, Bool.not_true, Bool.and_true,
              Bool.and_false]
            simp
            omega
          · intro g hg hgex hgcp d hd
            rcases List.mem_cons.mp hg with hg0 | hg0
            · subst hg0; rw [hgcp] at hcp2; cases hcp2
            · exact h4 g hg0 hgex hgcp d hd

/-! Helper for infix reasoning in the manifest theorem. -/

theorem infix_append_left (x : Str) {sub l : Str} (h : sub <:+: l) :
    sub <:+: x ++ l :=
  h.trans (List.suffix_append x l).isInfix

/-! Claim theorems. -/

/-- C1, counterexample: with sources [("a","x"),("/d","y")], root "/r" and the
file "/d/a/f" (which lies under the source "/d"), the first entry whose path
matches by substring search is ("a","x") at position 3, so the code returns
"/r/xd/a/f", which is not of the form root/alias/relative-path for either
entry. -/
theorem C1_make_backup_file_path_counterexample :
    make_backup_file_path [("a".toList, "x".toList), ("/d".toList, "y".toList)]
        "/r".toList "/d/a/f".toList = .ok "/r/xd/a/f".toList
    ∧ ¬ ("/r/x/".toList <+: "/r/xd/a/f".toList)
    ∧ ¬ ("/r/y/".toList <+: "/r/xd/a/f".toList) := by
  refine ⟨by decide, by decide, by decide⟩

/-- C1, amended: when the first source entry whose path occurs as a substring
of the file path is in fact a string prefix of it not ending in a slash, and
the alias is nonempty and not absolute, and the backup root is nonempty and
does not end in a slash, make_backup_file_path returns
root/alias/relative-path. -/
theorem C1_make_backup_file_path_amended {entries : List (Str × Str)}
    {bd p src als rel : Str}
    (hfm : firstMatch entries p = some (src, als))
    (hp : p = src ++ '/' :: rel)
    (ha1 : als ≠ []) (ha2 : isAbs als = false)
    (hb1 : bd ≠ []) (hb2 : endsWithSlash bd = false) :
    make_backup_file_path entries bd p = .ok (bd ++ '/' :: (als ++ '/' :: rel)) :=
  make_backup_file_path_layout hfm hp ha1 ha2 hb1 hb2

/-- Witness for the amended C1 at sources [("/s","x")], root "/r" and file
"/s/f". -/
theorem C1_make_backup_file_path_amended_witness :
    firstMatch [("/s".toList, "x".toList)] "/s/f".toList
      = some ("/s".toList, "x".toList)
    ∧ make_backup_file_path [("/s".toList, "x".toList)] "/r".toList "/s/f".toList
      = .ok ("/r".toList ++ '/' :: ("x".toList ++ '/' :: "f".toList))
    ∧ "/r".toList ++ '/' :: ("x".toList ++ '/' :: "f".toList) = "/r/x/f".toList :=
  ⟨by decide,
   @C1_make_backup_file_path_amended [("/s".toList, "x".toList)] "/r".toList
     "/s/f".toList "/s".toList "x".toList "f".toList (by decide) (by decide)
     (by decide) (by decide) (by decide) (by decide),
   by decide⟩

/-- C2, counterexample: by the claim's reading of "extension", ".bashrc" has
the lowercased extension ".bashrc", which is in the exclusion set [".bashrc"],
yet check_excluded_filetype returns false (os.path.splitext treats a
leading-dot name as having no extension). -/
theorem C2_check_excluded_filetype_counterexample :
    (spec_extension ".bashrc".toList).map Char.toLower ∈ [".bashrc".toList]
    ∧ check_excluded_filetype ".bashrc".toList [".bashrc".toList] = false := by
  refine ⟨by decide, by decide⟩

/-- C2, amended: check_excluded_filetype returns true exactly when the
lowercased extension is in the exclusion list, where the extension is the text
from the last dot of the final path segment on, except that it is empty when
the segment has no dot or every character of the segment before its last dot
is itself a dot; in particular IMAGE.SDF is excluded by [".sdf"] and
image.sdfx is not. -/
theorem C2_check_excluded_filetype_amended :
    (∀ (f : Str) (excl : List Str),
        check_excluded_filetype f excl = true ↔ (segExt f).map Char.toLower ∈ excl)
    ∧ check_excluded_filetype "IMAGE.SDF".toList [".sdf".toList] = true
    ∧ check_excluded_filetype "image.sdfx".toList [".sdf".toList] = false := by
  refine ⟨?_, by decide, by decide⟩
  intro f excl
  unfold check_excluded_filetype
  rw [splitext_ext_eq_segExt]
  by_cases hm : (segExt f).map Char.toLower ∈ excl
  · simp [hm]
  · simp [hm]

/-- C3: over a whole run (all backup roots, the shared file list), when every
non-excluded file maps to a backup path, the run completes without error even
when individual copies fail; the final failure counter is the starting counter
plus, for each root, exactly the number of non-excluded files whose copy
failed there; and every non-excluded file whose copy succeeded is recorded as
copied to its computed destination path. -/
theorem C3_copy_failure_isolation (source_dirs : List (Str × Str)) (excl : List Str)
    (copyOk : Str → Str → Bool) :
    ∀ (roots files : List Str) (st : CopyState),
    (∀ bd ∈ roots, ∀ f ∈ files, check_excluded_filetype f excl = false →
        mbfpOk source_dirs bd f = true) →
    ∃ st2, run_loop source_dirs excl copyOk roots files st = .ok st2
      ∧ st2.failed_copies = st.failed_copies
          + (roots.map (fun bd =>
              files.countP (fun f => !check_excluded_filetype f excl && !copyOk bd f))).sum
      ∧ (∀ x ∈ st.copied, x ∈ st2.copied)
      ∧ ∀ bd ∈ roots, ∀ f ∈ files, check_excluded_filetype f excl = false →
          copyOk bd f = true →
          ∀ d, make_backup_file_path source_dirs bd f = .ok d → (f, d) ∈ st2.copied := by
  intro roots
  induction roots with
  | nil =>
    intro files st _
    refine ⟨st, rfl, by simp, fun x hx => hx, ?_⟩
    intro bd hbd
    exact absurd hbd (List.not_mem_nil bd)
  | cons bd0 rest ih =>
    intro files st hmap
    rcases copy_loop_spec source_dirs excl copyOk bd0 files st
        (hmap bd0 (List.mem_cons_self bd0 rest)) with ⟨stA, hA1, hA2, hA3, hA4⟩
    have hmap2 : ∀ bd ∈ rest, ∀ f ∈ files, check_excluded_filetype f excl = false →
        mbfpOk source_dirs bd f = true :=
      fun bd hbd => hmap bd (List.mem_cons_of_mem bd0 hbd)
    rcases ih files stA hmap2 with ⟨st2, h1, h2, h3, h4⟩
    refine ⟨st2, ?_, ?_, ?_, ?_⟩
    · simp [run_loop, hA1, h1]
    · rw [h2, hA2, List.map_cons, List.sum_cons]
      omega
    · intro x hx
      exact h3 x (hA3 x hx)
    · intro bd hbd f hf hfex hfcp d hd
      rcases List.mem_cons.mp hbd with hbd0 | hbd0
      · subst hbd0
        exact h3 _ (hA4 f hf hfex hfcp d hd)
      · exact h4 bd hbd0 f hf hfex hfcp d hd

/-- Witness for C3: one root, three mappable files, the copy of /s/A fails and
the other two succeed; the run returns normally, reports exactly one failure,
and /s/B and /s/C are copied to their correct destinations. -/
theorem C3_copy_failure_isolation_witness :
    ∃ st2, run_loop [("/s".toList, "a".toList)] []
        (fun _ f => decide (f ≠ "/s/A".toList)) ["/r".toList]
        ["/s/A".toList, "/s/B".toList, "/s/C".toList] ⟨[], 0⟩ = .ok st2
      ∧ st2.failed_copies = 1
      ∧ ("/s/B".toList, "/r/a/B".toList) ∈ st2.copied
      ∧ ("/s/C".toList, "/r/a/C".toList) ∈ st2.copied := by
  rcases C3_copy_failure_isolation [("/s".toList, "a".toList)] []
      (fun _ f => decide (f ≠ "/s/A".toList)) ["/r".toList]
      ["/s/A".toList, "/s/B".toList, "/s/C".toList] ⟨[], 0⟩ (by decide) with
    ⟨st2, h1, h2, h3, h4⟩
  refine ⟨st2, h1, ?_, ?_, ?_⟩
  · rw [h2]; decide
  · exact h4 "/r".toList (by decide) "/s/B".toList (by decide) (by decide) (by decide)
      "/r/a/B".toList (by decide)
  · exact h4 "/r".toList (by decide) "/s/C".toList (by decide) (by decide) (by decide)
      "/r/a/C".toList (by decide)

/-- C4: when the filesystem contains only wellformed directory trees (no entry
name starts with a slash, as on every real filesystem), every file path
produced by get_files is mapped without error by make_backup_file_path with
the same source-entry list: the no-matching-entry ValueError branch is
unreachable for enumerator-produced paths. -/
theorem C4_enumerated_files_always_map (source_dirs : List (Str × Str))
    (fs : Str → Option FSTree) (bd : Str)
    (hwf : ∀ d t, fs d = some t → t.Wellformed) :
    ∀ q ∈ (get_files source_dirs fs).2,
      ∃ r, make_backup_file_path source_dirs bd q = .ok r := by
  intro q hq
  rcases get_files_mem hq with ⟨e, he, st, hst, f, hf, rfl⟩
  rcases os_walk_cases hst with ⟨t, hfd, hwalk⟩
  rcases walk_wf (hwf e.1 t hfd) e.1 st hwalk with ⟨hpre, hfiles⟩
  have hq2 : e.1 <+: posixJoin st.1 f := hpre.trans (posixJoin_left_pref st.1 (hfiles f hf))
  exact make_backup_file_path_ok_of_match bd e he (strFind_ne_neg_one_of_pref hq2)

/-- Witness for C4 on a one-file filesystem. -/
theorem C4_enumerated_files_always_map_witness :
    (∀ d t, (fun (_ : Str) => some (FSTree.node ["f".toList] [])) d = some t →
        t.Wellformed)
    ∧ ∀ q ∈ (get_files [("/s".toList, "a".toList)]
          (fun (_ : Str) => some (FSTree.node ["f".toList] []))).2,
        ∃ r, make_backup_file_path [("/s".toList, "a".toList)] "/r".toList q = .ok r := by
  have hwf : ∀ d t, (fun (_ : Str) => some (FSTree.node ["f".toList] [])) d = some t →
      t.Wellformed := by
    intro d t h
    have h2 := Option.some.inj h
    rw [← h2]
    refine FSTree.Wellformed.node _ _ (by decide) ?_ ?_
    · intro x hx
      exact absurd hx (List.not_mem_nil x)
    · intro x hx
      exact absurd hx (List.not_mem_nil x)
  exact ⟨hwf,
    C4_enumerated_files_always_map [("/s".toList, "a".toList)] _ "/r".toList hwf⟩

/-- C5: running make_backup_directory twice with the same backup destination
and timestamp from any starting filesystem returns ok both times with the same
path (the timestamp joined under the destination), and afterwards the
timestamped directory exists; an already existing directory is reused, not an
error. -/
theorem C5_make_backup_directory_idempotent (fs : List Str)
    (backup_loc timestamp : Str) :
    ∃ fs1, make_backup_directory fs backup_loc timestamp
        = .ok (posixJoin backup_loc timestamp, fs1)
      ∧ make_backup_directory fs1 backup_loc timestamp
        = .ok (posixJoin backup_loc timestamp, fs1)
      ∧ posixJoin backup_loc timestamp ∈ fs1 := by
  rcases make_backup_directory_spec fs backup_loc timestamp with ⟨fs1, h1, hmem⟩
  refine ⟨fs1, h1, ?_, hmem⟩
  simp [make_backup_directory, hmem]

/-- C6, counterexample: with the single source ("/s/","x") (a trailing-slash
source path), destination "/d1" and timestamp "T", the included file "/s/f"
is mapped to "/d1/T/xf", not to the claimed layout
destination/timestamp/alias/relative-path "/d1/T/x/f". -/
theorem C6_shared_timestamp_layout_counterexample :
    make_backup_file_path [("/s/".toList, "x".toList)]
        (posixJoin "/d1".toList "T".toList) "/s/f".toList = .ok "/d1/T/xf".toList
    ∧ "/d1/T/xf".toList ≠ "/d1/T/x/f".toList := by
  refine ⟨by decide, by decide⟩

/-- C6, amended: one timestamp is computed before the destination loop and
shared: the created snapshot directories are exactly the destinations joined
with that single timestamp (so all snapshot names are identical), and for a
well-behaved configuration (first matching source path a true prefix not
ending in slash, nonempty non-absolute alias, nonempty destination and
timestamp without trailing slash) every included file lands at
destination/timestamp/alias/relative-path. -/
theorem C6_shared_timestamp_layout_amended (locs fs : List Str)
    (entries : List (Str × Str)) {ts dest src als rel p : Str}
    (hdest : dest ∈ locs)
    (hfm : firstMatch entries p = some (src, als)) (hp : p = src ++ '/' :: rel)
    (ha1 : als ≠ []) (ha2 : isAbs als = false)
    (hd1 : dest ≠ []) (hd2 : endsWithSlash dest = false)
    (ht1 : ts ≠ []) (ht2 : isAbs ts = false) (ht3 : endsWithSlash ts = false) :
    (∃ fs2, make_backup_dirs_loop locs ts fs
        = .ok (locs.map (fun d => posixJoin d ts), fs2))
    ∧ posixJoin dest ts ∈ locs.map (fun d => posixJoin d ts)
    ∧ make_backup_file_path entries (posixJoin dest ts) p
        = .ok (dest ++ '/' :: (ts ++ '/' :: (als ++ '/' :: rel))) := by
  refine ⟨make_backup_dirs_loop_spec locs ts fs, List.mem_map_of_mem _ hdest, ?_⟩
  have hjoin : posixJoin dest ts = dest ++ '/' :: ts := posixJoin_eq hd1 hd2 ht2
  have hne : dest ++ '/' :: ts ≠ [] := by simp
  have hend : endsWithSlash (dest ++ '/' :: ts) = false := by
    rw [endsWithSlash_append ('/' :: ts) (by simp), endsWithSlash_cons ht1]
    exact ht3
  rw [hjoin, make_backup_file_path_layout hfm hp ha1 ha2 hne hend]
  simp

/-- Witness for the amended C6 at destinations ["/d1","/d2"], timestamp "T",
source ("/s","x") and file "/s/f". -/
theorem C6_shared_timestamp_layout_amended_witness :
    "/d1".toList ∈ ["/d1".toList, "/d2".toList]
    ∧ ((∃ fs2, make_backup_dirs_loop ["/d1".toList, "/d2".toList] "T".toList []
          = .ok (["/d1".toList, "/d2".toList].map (fun d => posixJoin d "T".toList), fs2))
        ∧ posixJoin "/d1".toList "T".toList
            ∈ ["/d1".toList, "/d2".toList].map (fun d => posixJoin d "T".toList)
        ∧ make_backup_file_path [("/s".toList, "x".toList)]
            (posixJoin "/d1".toList "T".toList) "/s/f".toList
          = .ok ("/d1".toList ++ '/' :: ("T".toList ++ '/' :: ("x".toList ++ '/' :: "f".toList))))
    ∧ "/d1".toList ++ '/' :: ("T".toList ++ '/' :: ("x".toList ++ '/' :: "f".toList))
        = "/d1/T/x/f".toList :=
  ⟨by decide,
   @C6_shared_timestamp_layout_amended ["/d1".toList, "/d2".toList] []
     [("/s".toList, "x".toList)] "T".toList "/d1".toList "/s".toList "x".toList
     "f".toList "/s/f".toList (by decide) (by decide) (by decide) (by decide)
     (by decide) (by decide) (by decide) (by decide) (by decide) (by decide),
   by decide⟩

set_option maxRecDepth 40000 in
/-- C7: with sources [("/a","x"),("/b","y")], destinations ["/d1","/d2"],
exclusions [".tmp"] and notes "hello", backup_notes writes the file
backup_notes.txt inside the given backup root "/d1", and for any timestamp
and hostname its text lists both source paths with indices 0 and 1, both
aliases with indices 0 and 1, both destinations with the current root "/d1"
marked "(here)" and "/d2" unmarked, the exclusion ".tmp", and the literal
notes text "hello". -/
theorem C7_backup_notes_manifest (timestamp hostname : Str) :
    (backup_notes "/d1".toList [("/a".toList, "x".toList), ("/b".toList, "y".toList)]
        ["/d1".toList, "/d2".toList] [".tmp".toList] timestamp "hello".toList
        hostname).1
      = "/d1/backup_notes.txt".toList
    ∧ ∀ sub ∈ ["0. /a\n".toList, "1. /b\n".toList, "0. x\n".toList, "1. y\n".toList,
        "/d1 (here)\n".toList, "/d2\n".toList, ".tmp\n".toList, "hello".toList],
      sub <:+: (backup_notes "/d1".toList
        [("/a".toList, "x".toList), ("/b".toList, "y".toList)]
        ["/d1".toList, "/d2".toList] [".tmp".toList] timestamp "hello".toList
        hostname).2 := by
  constructor
  · rfl
  · intro sub hsub
    dsimp only [backup_notes, backup_notes_content]
    fin_cases hsub <;>
      (rw [List.flatten_cons, List.flatten_cons, List.flatten_cons, List.flatten_cons,
          List.flatten_cons, List.flatten_cons, List.flatten_cons]
       exact infix_append_left _ (infix_append_left _ (infix_append_left _
         (infix_append_left _ (infix_append_left _ (infix_append_left _
           (infix_append_left _ (by decide))))))))

/-- C8, counterexample: with the relative source directory "s" containing one
file "f", get_files returns the relative path "s/f", which is not absolute. -/
theorem C8_get_files_absolute_counterexample :
    "s/f".toList ∈ (get_files [("s".toList, "a".toList)]
        (fun d => if d = "s".toList then some (FSTree.node ["f".toList] [])
                  else none)).2
    ∧ isAbs "s/f".toList = false := by
  refine ⟨by decide, by decide⟩

/-- C8, amended: when every configured source directory path is absolute,
every path returned by get_files is absolute. -/
theorem C8_get_files_absolute_amended (source_dirs : List (Str × Str))
    (fs : Str → Option FSTree)
    (habs : ∀ e ∈ source_dirs, isAbs e.1 = true) :
    ∀ q ∈ (get_files source_dirs fs).2, isAbs q = true := by
  intro q hq
  rcases get_files_mem hq with ⟨e, he, st, hst, f, hf, rfl⟩
  rcases os_walk_cases hst with ⟨t, hfd, hwalk⟩
  have hstabs : isAbs st.1 = true := walk_abs (habs e he) st hwalk
  exact posixJoin_abs f hstabs

/-- Witness for the amended C8 on a one-file filesystem under "/s". -/
theorem C8_get_files_absolute_amended_witness :
    (∀ e ∈ [("/s".toList, "a".toList)], isAbs e.1 = true)
    ∧ ∀ q ∈ (get_files [("/s".toList, "a".toList)]
          (fun (_ : Str) => some (FSTree.node ["f".toList] []))).2,
        isAbs q = true :=
  ⟨by decide,
   C8_get_files_absolute_amended [("/s".toList, "a".toList)]
     (fun (_ : Str) => some (FSTree.node ["f".toList] [])) (by decide)⟩

/-- C9: the file count returned by get_files always equals the length of the
returned file-path list. -/
theorem C9_get_files_count (source_dirs : List (Str × Str))
    (fs : Str → Option FSTree) :
    (get_files source_dirs fs).1 = (get_files source_dirs fs).2.length := by
  rw [get_files_eq]
  simp only [List.length_flatMap, List.map_map]
  refine congrArg List.sum ?_
  apply List.map_congr_left
  intro e _
  simp only [Function.comp_apply, List.length_flatMap]
  refine congrArg List.sum ?_
  apply List.map_congr_left
  intro st _
  simp

/-- C10: for a path whose final segment has no dot, or has its only dot at the
very start (like ".bashrc"), the computed splitext extension is the empty
string, and check_excluded_filetype returns true exactly when the empty string
itself is in the exclusion list. -/
theorem C10_no_extension_empty_string (p : Str) (excl : List Str)
    (h : (('.' : Char) ∉ lastSeg p)
      ∨ ∃ s, lastSeg p = '.' :: s ∧ ('.' : Char) ∉ s) :
    splitext_ext p = []
    ∧ (check_excluded_filetype p excl = true ↔ ([] : Str) ∈ excl) := by
  have hext : splitext_ext p = [] := by
    rw [splitext_ext_eq_segExt]
    rcases h with h | ⟨s, hseg, hs⟩
    · exact segExt_of_no_dot h
    · have hseg2 : lastSeg p = [] ++ '.' :: s := by simpa using hseg
      have := segExt_of_split hseg2 hs
      simpa using this
  refine ⟨hext, ?_⟩
  unfold check_excluded_filetype
  rw [hext]
  by_cases hm : ([] : Str) ∈ excl
  · simp [hm]
  · simp [hm]

/-- Witness for C10: ".bashrc" has the empty splitext extension and in
particular is not excluded by the exclusion list [".bashrc"]. -/
theorem C10_no_extension_empty_string_witness :
    (splitext_ext ".bashrc".toList = []
      ∧ (check_excluded_filetype ".bashrc".toList [".bashrc".toList] = true
          ↔ ([] : Str) ∈ [".bashrc".toList]))
    ∧ check_excluded_filetype ".bashrc".toList [".bashrc".toList] = false :=
  ⟨C10_no_extension_empty_string ".bashrc".toList [".bashrc".toList]
      (Or.inr ⟨"bashrc".toList, by decide, by decide⟩),
   by decide⟩

